import Mathlib

/-!
Verification of the tantivy `top_hits` aggregation core and the `Term`
binary layout.

Shallow embedding of:
* `src/schema/term.rs` — the binary term layout: a 4-byte big-endian field
  identifier followed by an 8-byte big-endian numeric value or UTF-8 text
  bytes;
* `src/aggregation/metric/top_hits.rs` — the sort-key comparator, the
  field-value extraction, per-segment collection, cross-segment merge and
  finalization.

Machine bytes are modelled as `ℕ` (each byte `< 256` wherever the code
writes one), `u64` values as `ℕ` with explicit `< 2 ^ 64` bounds, `i64`
values as `ℤ`.  Rust aborts (`expect`, the unimplemented fallback arm,
out-of-range `Vec::drain`) are modelled as `Except`/`Option` failure
values, so that the theorems can distinguish a returned result from an
abort.
-/

namespace Tantivy

/-! ### `src/schema/term.rs`: definitions -/

/-- Size (in bytes) of the buffer of an int field (`INT_TERM_LEN = 4 + 8`). -/
def INT_TERM_LEN : ℕ := 4 + 8

/-- `Term` wraps a byte buffer (a `Vec<u8>` in the source). -/
structure Term where
  bytes : List ℕ
deriving DecidableEq

/-- The `n` big-endian base-256 digits of `x`, most significant first:
byte `k` is `x / 256 ^ (n - 1 - k) % 256`, exactly the byte sequence that
`byteorder::BigEndian` writes. -/
def beBytes : ℕ → ℕ → List ℕ
  | 0, _ => []
  | n + 1, x => x / 256 ^ n % 256 :: beBytes n x

/-- `BigEndian::write_u64`: the 8 big-endian bytes of a `u64` value. -/
def writeU64BE (v : ℕ) : List ℕ := beBytes 8 v

/-- `BigEndian::write_u32`: the 4 big-endian bytes of a `u32` value. -/
def writeU32BE (v : ℕ) : List ℕ := beBytes 4 v

/-- `BigEndian::read_u64`: recombine the first 8 bytes, most significant
first. -/
def readU64BE (l : List ℕ) : ℕ := (l.take 8).foldl (fun a b => a * 256 + b) 0

/-- `BigEndian::read_u32`: recombine the first 4 bytes, most significant
first. -/
def readU32BE (l : List ℕ) : ℕ := (l.take 4).foldl (fun a b => a * 256 + b) 0

/-- `Vec::resize(n, 0u8)`: truncate to `n` bytes or pad with zero bytes up
to `n` bytes. -/
def resizeBytes (l : List ℕ) (n : ℕ) : List ℕ :=
  l.take n ++ List.replicate (n - l.length) 0

/-- `Term::field`: read the 4-byte big-endian field id prefix
(`extract_field_from_term_bytes`). -/
def Term.field (t : Term) : ℕ := readU32BE t.bytes

/-- `Term::set_field`: pad the buffer to at least 4 bytes if it is shorter
(the source resizes only when `len < 4`), then overwrite bytes `0..4` with
the big-endian field id. -/
def Term.set_field (t : Term) (field : ℕ) : Term :=
  let padded := if t.bytes.length < 4 then resizeBytes t.bytes 4 else t.bytes
  ⟨writeU32BE field ++ padded.drop 4⟩

/-- `Term::set_u64`: resize the buffer to `INT_TERM_LEN` and overwrite
bytes `4..12` with the 8-byte big-endian encoding of `val`. -/
def Term.set_u64 (t : Term) (val : ℕ) : Term :=
  ⟨(resizeBytes t.bytes INT_TERM_LEN).take 4 ++ writeU64BE val⟩

/-- `Term::get_u64`: read the 8-byte big-endian value that follows the
4-byte field prefix. -/
def Term.get_u64 (t : Term) : ℕ := readU64BE (t.bytes.drop 4)

/-- `Term::set_text`: resize the buffer down to the 4-byte field prefix and
extend it with the text bytes, keeping the field untouched. -/
def Term.set_text (t : Term) (text : List ℕ) : Term :=
  ⟨resizeBytes t.bytes 4 ++ text⟩

/-- `Term::value`: the serialized value, everything after the field
prefix. -/
def Term.value (t : Term) : List ℕ := t.bytes.drop 4

/-- Lexicographic byte-string comparison (the derived `Ord` on `Vec<u8>`),
restricted to "strictly less", as a Bool. -/
def lexLt : List ℕ → List ℕ → Bool
  | [], [] => false
  | [], _ :: _ => true
  | _ :: _, [] => false
  | a :: s, b :: t => if a < b then true else if b < a then false else lexLt s t

/-! ### `src/aggregation/metric/top_hits.rs`: sort-key comparator -/

/-- `crate::aggregation::bucket::Order` — the sort direction enum as used by
the source file (`Order::Asc`, `Order::Desc`). -/
inductive Order where
  | Asc
  | Desc
deriving DecidableEq

/-- `u64::cmp`: three-way comparison of the underlying values. -/
def natCmp (a b : ℕ) : Ordering :=
  if a < b then .lt else if b < a then .gt else .eq

/-- A single comparable doc feature: an optional u64-mappable value plus
the order in which it should be sorted (`ComparableDocFeature`). -/
structure ComparableDocFeature where
  value : Option ℕ
  order : Order
deriving DecidableEq

/-- `Ord for ComparableDocFeature`: compare present values numerically and
invert the result when `self.order` is `Desc` (`cmp.reverse()` is
`Ordering.swap`); a present value compares `Greater` than an absent one and
an absent value `Less` than a present one, with no inversion applied; two
absent values compare `Equal`. -/
def ComparableDocFeature.cmp (s other : ComparableDocFeature) : Ordering :=
  match s.value, other.value with
  | some a, some b =>
    match s.order with
    | .Asc => natCmp a b
    | .Desc => (natCmp a b).swap
  | some _, none => .gt
  | none, some _ => .lt
  | none, none => .eq

/-- The `schema::Value` variants constructed by `get_fields` in the source:
an unsigned integer, a signed integer, or a double.  The `F64` payload
keeps the raw order-preserving u64 bit pattern (`u64_to_f64` is a bijection
on bit patterns; IEEE semantics are outside the embedding). -/
inductive Value where
  | U64 (v : ℕ)
  | I64 (v : ℤ)
  | F64 (bits : ℕ)
deriving DecidableEq

/-- `SearchFieldResults`: the fast-field values returned for one hit
(`HashMap<String, Value>` modelled as an association list). -/
structure SearchFieldResults where
  doc_value_fields : List (String × Value)
deriving DecidableEq

/-- `ComparableDocFeatures`: the sort-key vector of one document together
with its display-field bundle (tuple struct in the source). -/
structure ComparableDocFeatures where
  features : List ComparableDocFeature
  search_results : SearchFieldResults
deriving DecidableEq

/-- The loop body of `Ord for ComparableDocFeatures`: walk the zipped
feature pairs and return at the first non-`Equal` comparison. -/
def cmpFeaturePairs : List (ComparableDocFeature × ComparableDocFeature) → Ordering
  | [] => .eq
  | p :: rest =>
    match p.1.cmp p.2 with
    | .eq => cmpFeaturePairs rest
    | c => c

/-- `Ord for ComparableDocFeatures`: lexicographic comparison over the
zipped feature vectors. -/
def ComparableDocFeatures.cmp (a b : ComparableDocFeatures) : Ordering :=
  cmpFeaturePairs (a.features.zip b.features)

/-- Flip a sort direction. -/
def flipOrder : Order → Order
  | .Asc => .Desc
  | .Desc => .Asc

/-- Flip the direction tag of one sort-key component, keeping its value. -/
def flipFeature (f : ComparableDocFeature) : ComparableDocFeature :=
  ⟨f.value, flipOrder f.order⟩

/-- The spec's wording of the vector comparator, for comparison against the
implementation: compare component-wise from index 0, return the comparison
of the first component pair that compares non-equal, and return `Equal`
when every component pair compares equal. -/
def lexFirstNonEqualSpec : List ComparableDocFeature → List ComparableDocFeature → Ordering
  | x :: xs, y :: ys =>
    if x.cmp y ≠ Ordering.eq then x.cmp y else lexFirstNonEqualSpec xs ys
  | _, _ => Ordering.eq

/-! ### `src/aggregation/metric/top_hits.rs`: field-value extraction -/

/-- `columnar::ColumnType` — the column type tags; `get_fields` handles
`U64`, `I64` and `F64` and leaves every other tag to the unimplemented
fallback arm. -/
inductive ColumnType where
  | U64
  | I64
  | F64
  | Bytes
  | Str
  | Bool
  | IpAddr
  | DateTime
deriving DecidableEq

/-- `columnar::Column<u64>` — the external column accessor: a finite
sequence of raw order-preserving u64 values per document
(`values_for_doc`). -/
structure Column where
  values_for_doc : ℕ → List ℕ

/-- `common::u64_to_i64`: flip the top bit and reinterpret as a
two's-complement `i64`; on values `< 2 ^ 64` that equals subtracting
`2 ^ 63`. -/
def u64_to_i64 (v : ℕ) : ℤ := (v : ℤ) - 2 ^ 63

/-- The aborts `get_fields` can hit, in source order: the
`expect("field accessor must exist")`, the `expect("val must exist")` on an
empty value sequence, and the unimplemented fallback arm for column types
other than `U64`/`I64`/`F64`. -/
inductive FieldError where
  | accessorMustExist
  | valMustExist
  | todoUnsupported
deriving DecidableEq

/-- The `match accessor.1 { ... }` decode step of `get_fields`: `U64`
passes the raw value through, `I64` applies `u64_to_i64`, `F64` applies the
bit-pattern transform (`u64_to_f64`, kept as raw bits here), and every
other tag hits the unimplemented fallback arm. -/
def decodeColumnValue (tag : ColumnType) (v : ℕ) : Except FieldError Value :=
  match tag with
  | .U64 => .ok (.U64 v)
  | .I64 => .ok (.I64 (u64_to_i64 v))
  | .F64 => .ok (.F64 v)
  | _ => .error .todoUnsupported

/-- The per-field loop of `SearchFields::get_fields`, walking the
requested field names in order: look up the field's accessor (the
`expect("field accessor must exist")`), take the first value of
`values_for_doc` (the `expect("val must exist")`, which aborts on an
empty sequence), decode it by column type, and collect the
`(field, value)` pairs; each abort stops the whole loop, as a Rust abort
stops the surrounding iterator. -/
def get_fields_loop (accessors : List (String × (Column × ColumnType)))
    (doc_id : ℕ) : List String → Except FieldError (List (String × Value))
  | [] => .ok []
  | field :: fields =>
    match accessors.lookup field with
    | none => .error .accessorMustExist
    | some accessor =>
      match (accessor.1.values_for_doc doc_id).head? with
      | none => .error .valMustExist
      | some v =>
        match decodeColumnValue accessor.2 v with
        | .error e => .error e
        | .ok value =>
          match get_fields_loop accessors doc_id fields with
          | .error e => .error e
          | .ok rest => .ok ((field, value) :: rest)

/-- `SearchFields::get_fields`: run the per-field loop and wrap the
collected `(field, value)` pairs. -/
def get_fields (doc_value_fields : List String)
    (accessors : List (String × (Column × ColumnType))) (doc_id : ℕ) :
    Except FieldError SearchFieldResults :=
  match get_fields_loop accessors doc_id doc_value_fields with
  | .error e => .error e
  | .ok dvf => .ok ⟨dvf⟩

/-! ### Bounded top-K selector and the collectors built on it: definitions -/

section SelectorDefs

variable {α β : Type} [LinearOrder α]

/-- Best-first order on a list of (key, payload) entries: keys weakly
decreasing. -/
def SortedDesc (l : List (α × β)) : Prop := l.Pairwise (fun a b => b.1 ≤ a.1)

/-- Insert an entry into a best-first list: the new entry goes in front of
the first strictly worse entry, hence after any entries of equal key. -/
def insortDesc (e : α × β) : List (α × β) → List (α × β)
  | [] => [e]
  | a :: s => if a.1 < e.1 then e :: a :: s else a :: insortDesc e s

/-- Modelled from the spec: `crate::collector::TopNComputer`, used by the
source file, is not under `src/`.  Spec §4.3: a bounded top-K selector
`new(capacity K)` whose `push(key, payload)` inserts unconditionally while
below capacity and, at capacity, evicts the worst retained entry exactly
when the new key ranks strictly better than it (otherwise the push is
discarded); `into_sorted_sequence` returns the retained entries ordered
best to worst; capacity 0 retains nothing and never aborts.  The retained
entries are kept here as a best-first sorted list; pushing inserts after
equal keys and truncates to the capacity, which realizes exactly that
contract. -/
structure TopNComputer (α β : Type) where
  capacity : ℕ
  buffer : List (α × β)

/-- `TopNComputer::new(capacity)`. -/
def TopNComputer.new (α β : Type) (K : ℕ) : TopNComputer α β := ⟨K, []⟩

/-- `TopNComputer::push(feature, doc)`. -/
def TopNComputer.push (c : TopNComputer α β) (feature : α) (doc : β) :
    TopNComputer α β :=
  ⟨c.capacity, (insortDesc (feature, doc) c.buffer).take c.capacity⟩

/-- `TopNComputer::into_sorted_vec`: the retained entries, best first. -/
def TopNComputer.intoSortedVec (c : TopNComputer α β) : List (α × β) := c.buffer

/-- `TopNComputer::into_vec`: the retained entries (order irrelevant to the
callers modelled here). -/
def TopNComputer.intoVec (c : TopNComputer α β) : List (α × β) := c.buffer

/-- Push a whole list of entries, first to last. -/
def TopNComputer.pushAll (c : TopNComputer α β) (l : List (α × β)) :
    TopNComputer α β :=
  l.foldl (fun acc e => acc.push e.1 e.2) c

/-- `TopHitsCollector`: the request's `size` and `from` (the only request
fields that collection, merging and pagination read) plus the selector. -/
structure TopHitsCollector (α β : Type) where
  req_size : ℕ
  req_from : Option ℕ
  top_n : TopNComputer α β

/-- `TopHitsCollector::collect`: push one (sort-key, document) pair into
the selector. -/
def TopHitsCollector.collect (c : TopHitsCollector α β) (features : α)
    (doc : β) : TopHitsCollector α β :=
  ⟨c.req_size, c.req_from, c.top_n.push features doc⟩

/-- `TopHitsCollector::merge_fruits`: re-collect every retained entry of
the other collector (the source's `Result` is always `Ok`, so no error
case is modelled). -/
def TopHitsCollector.merge_fruits (c other : TopHitsCollector α β) :
    TopHitsCollector α β :=
  other.top_n.intoVec.foldl (fun acc e => acc.collect e.1 e.2) c

/-- `TopHitsCollector::finalize`: drain the selector best-first and remove
the first `from.unwrap_or(0)` hits (`hits.drain(..from)`).  `Vec::drain`
aborts when the range end exceeds the vector length; that abort is
modelled as `none`. -/
def TopHitsCollector.finalize (c : TopHitsCollector α β) :
    Option (List (α × β)) :=
  let hits := c.top_n.intoSortedVec
  if c.req_from.getD 0 ≤ hits.length then
    some (hits.drop (c.req_from.getD 0))
  else none

/-- `SegmentTopHitsCollector::from_req`: a fresh collector whose selector
has capacity `size + from.unwrap_or(0)` (the segment ordinal and accessor
index do not affect selection and are omitted). -/
def from_req (size : ℕ) (fromOpt : Option ℕ) : TopHitsCollector α β :=
  ⟨size, fromOpt, TopNComputer.new α β (size + fromOpt.getD 0)⟩

/-- Collect a whole list of (sort-key, document) pairs, first to last
(`SegmentTopHitsCollector::collect` over a document stream, and also
`collect_block`, which just loops `collect`). -/
def TopHitsCollector.collectAll (c : TopHitsCollector α β)
    (l : List (α × β)) : TopHitsCollector α β :=
  l.foldl (fun acc e => acc.collect e.1 e.2) c

/-- Build one segment collector per part, collect each part into it, and
fold every partial result into a fresh global collector with
`merge_fruits`. -/
def mergeAllParts (size : ℕ) (fromOpt : Option ℕ)
    (parts : List (List (α × β))) : TopHitsCollector α β :=
  (parts.map (fun p => (from_req size fromOpt).collectAll p)).foldl
    TopHitsCollector.merge_fruits (from_req size fromOpt)

/-- The keys (sort-key ranks) of a list of entries. -/
def keysOf (l : List (α × β)) : List α := l.map Prod.fst

/-- Insertion sort into a best-first list, first to last (the reference
order against which selector contents are characterized). -/
def insortAll (s l : List (α × β)) : List (α × β) :=
  l.foldl (fun acc e => insortDesc e acc) s

end SelectorDefs

/-! ### Proofs about the `Term` layout -/

theorem beBytes_length (n x : ℕ) : (beBytes n x).length = n := by
  induction n with
  | zero => rfl
  | succ n ih => simp [beBytes, ih]

/-- Splitting off the most significant base-256 digit of `x % (B * 256)`. -/
theorem digit_decomp (B x : ℕ) : x % (B * 256) = B * (x / B % 256) + x % B := by
  have h1 : x % (B * 256) / B = x / B % 256 := Nat.mod_mul_right_div_self x B 256
  have h2 : x % (B * 256) % B = x % B := Nat.mod_mod_of_dvd x ⟨256, rfl⟩
  have h3 := Nat.div_add_mod (x % (B * 256)) B
  rw [h1, h2] at h3
  exact h3.symm

/-- Big-endian byte strings compare lexicographically like the encoded
numbers. -/
theorem lexLt_beBytes : ∀ n x y : ℕ, x % 256 ^ n < y % 256 ^ n →
    lexLt (beBytes n x) (beBytes n y) = true := by
  intro n
  induction n with
  | zero => intro x y h; simp [Nat.mod_one] at h
  | succ n ih =>
    intro x y h
    have hB : 0 < (256 : ℕ) ^ n := pow_pos (by norm_num) n
    have hx := digit_decomp (256 ^ n) x
    have hy := digit_decomp (256 ^ n) y
    rw [pow_succ, hx, hy] at h
    have hrx : x % 256 ^ n < 256 ^ n := Nat.mod_lt _ hB
    have hry : y % 256 ^ n < 256 ^ n := Nat.mod_lt _ hB
    show lexLt (x / 256 ^ n % 256 :: beBytes n x)
        (y / 256 ^ n % 256 :: beBytes n y) = true
    rcases lt_trichotomy (x / 256 ^ n % 256) (y / 256 ^ n % 256) with hd | hd | hd
    · simp [lexLt, hd]
    · have hr : x % 256 ^ n < y % 256 ^ n := by rw [hd] at h; omega
      have h1 : ¬ x / 256 ^ n % 256 < y / 256 ^ n % 256 := by omega
      have h2 : ¬ y / 256 ^ n % 256 < x / 256 ^ n % 256 := by omega
      simp [lexLt, h1, h2, ih x y hr]
    · exfalso
      have hmul : 256 ^ n * (y / 256 ^ n % 256 + 1) ≤ 256 ^ n * (x / 256 ^ n % 256) :=
        Nat.mul_le_mul_left _ hd
      rw [Nat.mul_succ] at hmul
      omega

/-- Recombining the big-endian digits recovers the number (modulo the
range), for any fold accumulator. -/
theorem foldl_beBytes : ∀ (n x a : ℕ),
    (beBytes n x).foldl (fun a b => a * 256 + b) a = a * 256 ^ n + x % 256 ^ n := by
  intro n
  induction n with
  | zero => intro x a; simp [beBytes, Nat.mod_one]
  | succ n ih =>
    intro x a
    show (beBytes n x).foldl (fun a b => a * 256 + b) (a * 256 + x / 256 ^ n % 256) = _
    rw [ih, pow_succ, digit_decomp (256 ^ n) x]
    ring

theorem resizeBytes_length (l : List ℕ) (n : ℕ) : (resizeBytes l n).length = n := by
  simp [resizeBytes]
  omega

/-- The value bytes written by `set_u64` are exactly the 8-byte big-endian
encoding. -/
theorem set_u64_value (t : Term) (v : ℕ) : (t.set_u64 v).value = writeU64BE v := by
  have h4 : ((resizeBytes t.bytes INT_TERM_LEN).take 4).length = 4 := by
    simp [resizeBytes_length, INT_TERM_LEN]
  show ((resizeBytes t.bytes INT_TERM_LEN).take 4 ++ writeU64BE v).drop 4 = writeU64BE v
  rw [List.drop_left' h4]

theorem get_set_u64 (t : Term) (v : ℕ) (hv : v < 2 ^ 64) :
    (t.set_u64 v).get_u64 = v := by
  show readU64BE ((t.set_u64 v).value) = v
  rw [set_u64_value]
  show readU64BE (beBytes 8 v) = v
  have htake : (beBytes 8 v).take 8 = beBytes 8 v :=
    List.take_of_length_le (by rw [beBytes_length])
  rw [readU64BE, htake, foldl_beBytes]
  have : (256 : ℕ) ^ 8 = 2 ^ 64 := by norm_num
  rw [this, Nat.mod_eq_of_lt hv]
  ring

theorem take4_set_u64 (t : Term) (v : ℕ) (h : 4 ≤ t.bytes.length) :
    ((t.set_u64 v).bytes).take 4 = t.bytes.take 4 := by
  show (((resizeBytes t.bytes INT_TERM_LEN).take 4 ++ writeU64BE v)).take 4
      = t.bytes.take 4
  have h4 : ((resizeBytes t.bytes INT_TERM_LEN).take 4).length = 4 := by
    simp [resizeBytes_length, INT_TERM_LEN]
  rw [List.take_append_of_le_length (by rw [h4]), List.take_take]
  rw [resizeBytes]
  rw [List.take_append_of_le_length]
  · rw [List.take_take]
    norm_num [INT_TERM_LEN]
  · simp [INT_TERM_LEN]
    omega

theorem take4_set_text (t : Term) (s : List ℕ) (h : 4 ≤ t.bytes.length) :
    ((t.set_text s).bytes).take 4 = t.bytes.take 4 := by
  show (resizeBytes t.bytes 4 ++ s).take 4 = t.bytes.take 4
  rw [List.take_append_of_le_length (by rw [resizeBytes_length]), resizeBytes]
  rw [List.take_append_of_le_length]
  · rw [List.take_take]
    norm_num
  · simp
    omega

theorem set_text_value (t : Term) (s : List ℕ) :
    (t.set_text s).value = s := by
  have h4 : (resizeBytes t.bytes 4).length = 4 := resizeBytes_length _ _
  show (resizeBytes t.bytes 4 ++ s).drop 4 = s
  rw [List.drop_left' h4]

/-! ### Proofs about the selector and the collectors -/

section SelectorProofs

variable {α β : Type} [LinearOrder α]

theorem insortDesc_perm (e : α × β) :
    ∀ s : List (α × β), (insortDesc e s).Perm (e :: s) := by
  intro s
  induction s with
  | nil => exact List.Perm.refl _
  | cons a s ih =>
    show (if a.1 < e.1 then e :: a :: s else a :: insortDesc e s).Perm _
    by_cases h : a.1 < e.1
    · rw [if_pos h]
    · rw [if_neg h]
      exact (ih.cons a).trans (List.Perm.swap e a s)

theorem SortedDesc.insort {s : List (α × β)} (h : SortedDesc s) (e : α × β) :
    SortedDesc (insortDesc e s) := by
  induction s with
  | nil => exact List.pairwise_singleton _ _
  | cons a s ih =>
    rw [SortedDesc, List.pairwise_cons] at h
    show SortedDesc (if a.1 < e.1 then e :: a :: s else a :: insortDesc e s)
    by_cases hc : a.1 < e.1
    · rw [if_pos hc]
      refine List.Pairwise.cons ?_ (List.Pairwise.cons h.1 h.2)
      intro b hb
      rcases List.mem_cons.mp hb with hb | hb
      · rw [hb]; exact le_of_lt hc
      · exact le_trans (h.1 b hb) (le_of_lt hc)
    · rw [if_neg hc]
      refine List.Pairwise.cons ?_ (ih h.2)
      intro b hb
      have hmem := (insortDesc_perm e s).mem_iff.mp hb
      rcases List.mem_cons.mp hmem with hb' | hb'
      · rw [hb']; exact not_lt.mp hc
      · exact h.1 b hb'

theorem SortedDesc.take {s : List (α × β)} (h : SortedDesc s) (n : ℕ) :
    SortedDesc (s.take n) :=
  h.sublist (List.take_sublist n s)

/-- Truncating to `K`, inserting, and truncating again is the same as
inserting into the full sorted list and truncating: entries beyond the
cutoff never influence the first `K` retained entries. -/
theorem take_insort_take {s : List (α × β)} (h : SortedDesc s) (e : α × β) :
    ∀ K : ℕ, ((insortDesc e (s.take K)).take K) = (insortDesc e s).take K := by
  induction s with
  | nil => intro K; rw [List.take_nil]
  | cons a s ih =>
    intro K
    match K with
    | 0 => rw [List.take_zero, List.take_zero]
    | K + 1 =>
      rw [List.take_succ_cons]
      show (if a.1 < e.1 then e :: a :: s.take K else a :: insortDesc e (s.take K)).take (K + 1)
          = (if a.1 < e.1 then e :: a :: s else a :: insortDesc e s).take (K + 1)
      by_cases hc : a.1 < e.1
      · rw [if_pos hc, if_pos hc, List.take_succ_cons, List.take_succ_cons]
        match K with
        | 0 => rw [List.take_zero, List.take_zero]
        | K + 1 =>
          rw [List.take_succ_cons, List.take_succ_cons, List.take_take]
          rw [Nat.min_eq_left (Nat.le_succ K)]
      · rw [if_neg hc, if_neg hc, List.take_succ_cons, List.take_succ_cons]
        rw [ih (List.Pairwise.sublist (List.sublist_cons_self a s) h) K]

theorem insortAll_nil (s : List (α × β)) : insortAll s [] = s := rfl

theorem insortAll_cons (s : List (α × β)) (e : α × β) (l : List (α × β)) :
    insortAll s (e :: l) = insortAll (insortDesc e s) l := rfl

theorem insortAll_append (s a b : List (α × β)) :
    insortAll s (a ++ b) = insortAll (insortAll s a) b := by
  rw [insortAll, insortAll, insortAll, List.foldl_append]

theorem insortAll_perm (l : List (α × β)) :
    ∀ s : List (α × β), (insortAll s l).Perm (s ++ l) := by
  induction l with
  | nil => intro s; rw [insortAll_nil, List.append_nil]
  | cons e l ih =>
    intro s
    rw [insortAll_cons]
    refine (ih (insortDesc e s)).trans ?_
    refine (((insortDesc_perm e s).append_right l).trans ?_)
    have : (e :: s) ++ l = e :: (s ++ l) := rfl
    rw [this]
    exact (List.perm_middle).symm

theorem SortedDesc.insortAll {s : List (α × β)} (h : SortedDesc s)
    (l : List (α × β)) : SortedDesc (insortAll s l) := by
  induction l generalizing s with
  | nil => exact h
  | cons e l ih => exact ih (h.insort e)

theorem pushAll_capacity (c : TopNComputer α β) (l : List (α × β)) :
    (c.pushAll l).capacity = c.capacity := by
  induction l generalizing c with
  | nil => rfl
  | cons e l ih => exact ih _

/-- The selector state after any sequence of pushes is the best-first
insertion sort of everything pushed, truncated to the capacity. -/
theorem pushAll_buffer (K : ℕ) (l : List (α × β)) :
    ∀ s : List (α × β), SortedDesc s →
    ((⟨K, s.take K⟩ : TopNComputer α β).pushAll l).buffer = (insortAll s l).take K := by
  induction l with
  | nil => intro s _; rfl
  | cons e l ih =>
    intro s hs
    show ((⟨K, (insortDesc (e.1, e.2) (s.take K)).take K⟩ : TopNComputer α β).pushAll l).buffer
        = (insortAll (insortDesc e s) l).take K
    rw [take_insort_take hs (e.1, e.2)]
    have : (e.1, e.2) = e := rfl
    rw [this]
    exact ih (insortDesc e s) (hs.insort e)

theorem new_pushAll_buffer (K : ℕ) (l : List (α × β)) :
    ((TopNComputer.new α β K).pushAll l).buffer = (insortAll [] l).take K := by
  have h := pushAll_buffer K l [] (List.Pairwise.nil)
  rw [List.take_nil] at h
  exact h

theorem keysOf_perm {l₁ l₂ : List (α × β)} (h : l₁.Perm l₂) :
    (keysOf l₁).Perm (keysOf l₂) := h.map Prod.fst

theorem keysOf_sorted {l : List (α × β)} (h : SortedDesc l) :
    (keysOf l).Pairwise (fun a b : α => b ≤ a) :=
  (List.pairwise_map).mpr h

theorem keysOf_take (l : List (α × β)) (n : ℕ) :
    keysOf (l.take n) = (keysOf l).take n := List.map_take ..

/-- Two best-first sorted entry lists with permutation-equal key lists have
equal key lists (antisymmetry of `≤` on the keys). -/
theorem keysOf_eq_of_perm {l₁ l₂ : List (α × β)} (h : (keysOf l₁).Perm (keysOf l₂))
    (h₁ : SortedDesc l₁) (h₂ : SortedDesc l₂) : keysOf l₁ = keysOf l₂ := by
  have : IsAntisymm α (fun a b : α => b ≤ a) := ⟨fun _ _ hab hba => le_antisymm hba hab⟩
  exact List.eq_of_perm_of_sorted h (keysOf_sorted h₁) (keysOf_sorted h₂)

/-- The keys of the retained top-K entries depend only on the multiset of
pushed keys. -/
theorem insortAll_take_keys_of_perm {l₁ l₂ : List (α × β)}
    (h : (keysOf l₁).Perm (keysOf l₂)) (K : ℕ) :
    keysOf ((insortAll [] l₁).take K) = keysOf ((insortAll [] l₂).take K) := by
  have hp : (keysOf (insortAll [] l₁)).Perm (keysOf (insortAll [] l₂)) := by
    refine (keysOf_perm (insortAll_perm l₁ [])).trans (h.trans ?_)
    exact (keysOf_perm (insortAll_perm l₂ [])).symm
  have heq := keysOf_eq_of_perm hp
    (SortedDesc.insortAll List.Pairwise.nil l₁)
    (SortedDesc.insortAll List.Pairwise.nil l₂)
  rw [keysOf_take, keysOf_take, heq]

theorem keysOf_cons (e : α × β) (l : List (α × β)) :
    keysOf (e :: l) = e.1 :: keysOf l := rfl

/-- `insortDesc` inspects only keys: it maps equal key lists to equal key
lists. -/
theorem insortDesc_keys_congr (e₁ e₂ : α × β) (he : e₁.1 = e₂.1) :
    ∀ s t : List (α × β), keysOf s = keysOf t →
    keysOf (insortDesc e₁ s) = keysOf (insortDesc e₂ t) := by
  intro s
  induction s with
  | nil =>
    intro t ht
    have : t = [] := List.eq_nil_of_map_eq_nil ht.symm
    subst this
    simp [keysOf, insortDesc, he]
  | cons a s ih =>
    intro t ht
    match t with
    | [] => exact absurd ht (by simp [keysOf])
    | b :: t' =>
      rw [keysOf, List.map_cons, keysOf, List.map_cons] at ht
      have hab : a.1 = b.1 := (List.cons.injEq _ _ _ _ ▸ ht).1
      have hst : keysOf s = keysOf t' := (List.cons.injEq _ _ _ _ ▸ ht).2
      show keysOf (if a.1 < e₁.1 then e₁ :: a :: s else a :: insortDesc e₁ s)
          = keysOf (if b.1 < e₂.1 then e₂ :: b :: t' else b :: insortDesc e₂ t')
      by_cases hc : a.1 < e₁.1
      · rw [if_pos hc, if_pos (by rw [← hab, ← he]; exact hc)]
        rw [keysOf_cons, keysOf_cons, keysOf_cons, keysOf_cons, he, hab, hst]
      · rw [if_neg hc, if_neg (by rw [← hab, ← he]; exact hc)]
        rw [keysOf_cons, keysOf_cons, hab, ih t' hst]

/-- Congruence of the retained key list under pushing a common suffix into
two sorted states that agree on their top-K keys. -/
theorem insortAll_take_keys_congr (K : ℕ) (rest : List (α × β)) :
    ∀ u v : List (α × β), SortedDesc u → SortedDesc v →
    keysOf (u.take K) = keysOf (v.take K) →
    keysOf ((insortAll u rest).take K) = keysOf ((insortAll v rest).take K) := by
  induction rest with
  | nil => intro u v _ _ h; exact h
  | cons e rest ih =>
    intro u v hu hv h
    rw [insortAll_cons, insortAll_cons]
    refine ih _ _ (hu.insort e) (hv.insort e) ?_
    rw [← take_insort_take hu e K, ← take_insort_take hv e K]
    rw [keysOf_take, keysOf_take,
      insortDesc_keys_congr e e rfl (u.take K) (v.take K) h]

/-- Replacing a part by its retained top-K before further pushes does not
change the final retained keys. -/
theorem absorb_one_part (K : ℕ) (p rest : List (α × β)) :
    keysOf ((insortAll [] ((insortAll [] p).take K ++ rest)).take K)
      = keysOf ((insortAll [] (p ++ rest)).take K) := by
  rw [insortAll_append, insortAll_append]
  refine insortAll_take_keys_congr K rest _ _
    (SortedDesc.insortAll List.Pairwise.nil _)
    (SortedDesc.insortAll List.Pairwise.nil _) ?_
  have hsorted : SortedDesc ((insortAll [] p).take K) :=
    (SortedDesc.insortAll List.Pairwise.nil p).take K
  have hperm : (keysOf (insortAll [] ((insortAll [] p).take K))).Perm
      (keysOf ((insortAll [] p).take K)) := by
    have h := insortAll_perm ((insortAll [] p).take K) []
    rw [List.nil_append] at h
    exact keysOf_perm h
  have heq := keysOf_eq_of_perm hperm
    (SortedDesc.insortAll List.Pairwise.nil _) hsorted
  rw [keysOf_take, keysOf_take, heq, keysOf_take, List.take_take, Nat.min_self]

/-- Replacing every part by its retained top-K does not change the final
retained keys, for any trailing entries. -/
theorem mergeParts_keys_aux (K : ℕ) (parts : List (List (α × β))) :
    ∀ rest : List (α × β),
    keysOf ((insortAll [] ((parts.map (fun p => (insortAll [] p).take K)).flatten ++ rest)).take K)
      = keysOf ((insortAll [] (parts.flatten ++ rest)).take K) := by
  induction parts with
  | nil => intro rest; rfl
  | cons p ps ih =>
    intro rest
    have hL : (((p :: ps).map (fun p => (insortAll [] p).take K)).flatten ++ rest)
        = (insortAll [] p).take K
          ++ ((ps.map (fun p => (insortAll [] p).take K)).flatten ++ rest) := by
      rw [List.map_cons, List.flatten_cons, List.append_assoc]
    rw [hL, absorb_one_part K p _]
    have hperm1 : (keysOf (p ++ ((ps.map (fun p => (insortAll [] p).take K)).flatten ++ rest))).Perm
        (keysOf ((ps.map (fun p => (insortAll [] p).take K)).flatten ++ (p ++ rest))) := by
      refine keysOf_perm ?_
      rw [← List.append_assoc, ← List.append_assoc]
      exact List.perm_append_comm.append_right rest
    rw [insortAll_take_keys_of_perm hperm1 K, ih (p ++ rest)]
    refine insortAll_take_keys_of_perm (keysOf_perm ?_) K
    rw [List.flatten_cons, ← List.append_assoc]
    exact List.perm_append_comm.append_right rest

theorem collectAll_top_n (l : List (α × β)) :
    ∀ c : TopHitsCollector α β, (c.collectAll l).top_n = c.top_n.pushAll l := by
  induction l with
  | nil => intro c; rfl
  | cons e l ih =>
    intro c
    show ((c.collect e.1 e.2).collectAll l).top_n = _
    rw [ih (c.collect e.1 e.2)]
    rfl

theorem collectAll_req_from (l : List (α × β)) :
    ∀ c : TopHitsCollector α β, (c.collectAll l).req_from = c.req_from := by
  induction l with
  | nil => intro c; rfl
  | cons e l ih =>
    intro c
    show ((c.collect e.1 e.2).collectAll l).req_from = _
    rw [ih (c.collect e.1 e.2)]
    rfl

theorem merge_fruits_top_n (c other : TopHitsCollector α β) :
    (c.merge_fruits other).top_n = c.top_n.pushAll other.top_n.intoVec :=
  collectAll_top_n other.top_n.intoVec c

theorem pushAll_append (c : TopNComputer α β) (a b : List (α × β)) :
    (c.pushAll a).pushAll b = c.pushAll (a ++ b) := by
  rw [TopNComputer.pushAll, TopNComputer.pushAll, TopNComputer.pushAll,
    List.foldl_append]

theorem foldl_merge_top_n (cs : List (TopHitsCollector α β)) :
    ∀ base : TopHitsCollector α β,
    (cs.foldl TopHitsCollector.merge_fruits base).top_n
      = base.top_n.pushAll (cs.map (fun c => c.top_n.intoVec)).flatten := by
  induction cs with
  | nil => intro base; rfl
  | cons c cs ih =>
    intro base
    show (cs.foldl TopHitsCollector.merge_fruits (base.merge_fruits c)).top_n = _
    rw [ih (base.merge_fruits c), merge_fruits_top_n, pushAll_append,
      List.map_cons, List.flatten_cons]

theorem from_req_top_n (size : ℕ) (fromOpt : Option ℕ) :
    (from_req size fromOpt : TopHitsCollector α β).top_n
      = TopNComputer.new α β (size + fromOpt.getD 0) := rfl

/-- The single-collector run: retained entries are the best-first sort of
every collected entry, truncated to `size + from`. -/
theorem collectAll_buffer (size : ℕ) (fromOpt : Option ℕ) (l : List (α × β)) :
    ((from_req size fromOpt : TopHitsCollector α β).collectAll l).top_n.buffer
      = (insortAll [] l).take (size + fromOpt.getD 0) := by
  rw [collectAll_top_n, from_req_top_n, new_pushAll_buffer]

/-- The merged run: retained entries are the best-first sort of the
re-pushed per-part retained entries, truncated to `size + from`. -/
theorem mergeAllParts_buffer (size : ℕ) (fromOpt : Option ℕ)
    (parts : List (List (α × β))) :
    (mergeAllParts size fromOpt parts : TopHitsCollector α β).top_n.buffer
      = (insortAll []
          ((parts.map (fun p => (insortAll [] p).take (size + fromOpt.getD 0))).flatten)).take
        (size + fromOpt.getD 0) := by
  rw [mergeAllParts, foldl_merge_top_n, List.map_map]
  have hfun : ((fun c : TopHitsCollector α β => c.top_n.intoVec)
        ∘ (fun p => (from_req size fromOpt : TopHitsCollector α β).collectAll p))
      = fun p => (insortAll [] p).take (size + fromOpt.getD 0) := by
    funext p
    show ((from_req size fromOpt : TopHitsCollector α β).collectAll p).top_n.buffer = _
    exact collectAll_buffer size fromOpt p
  rw [hfun, from_req_top_n, new_pushAll_buffer]

end SelectorProofs

/-! ### Proofs about the comparator -/

/-- The implementation loop agrees with "return the comparison of the
first component pair that compares non-equal". -/
theorem cmpFeaturePairs_eq_lexSpec :
    ∀ xs ys : List ComparableDocFeature,
    cmpFeaturePairs (xs.zip ys) = lexFirstNonEqualSpec xs ys := by
  intro xs
  induction xs with
  | nil => intro ys; cases ys <;> rfl
  | cons x xs ih =>
    intro ys
    cases ys with
    | nil => rfl
    | cons y ys =>
      show (match x.cmp y with
        | Ordering.eq => cmpFeaturePairs (xs.zip ys)
        | c => c)
          = if x.cmp y ≠ Ordering.eq then x.cmp y else lexFirstNonEqualSpec xs ys
      rcases h : x.cmp y with _ | _ | _
      · rw [if_pos (by decide)]
      · rw [if_neg (by decide)]
        exact ih ys
      · rw [if_pos (by decide)]

/-- The implementation loop returns `Equal` exactly when every zipped pair
compares `Equal`. -/
theorem cmpFeaturePairs_eq_iff :
    ∀ l : List (ComparableDocFeature × ComparableDocFeature),
    cmpFeaturePairs l = Ordering.eq ↔ ∀ p ∈ l, p.1.cmp p.2 = Ordering.eq := by
  intro l
  induction l with
  | nil => simp [cmpFeaturePairs]
  | cons p rest ih =>
    show (match p.1.cmp p.2 with
      | Ordering.eq => cmpFeaturePairs rest
      | c => c) = Ordering.eq ↔ _
    rcases h : p.1.cmp p.2 with _ | _ | _
    · show Ordering.lt = Ordering.eq ↔ _
      constructor
      · intro hc; exact Ordering.noConfusion hc
      · intro hall
        have h2 := hall p (List.mem_cons_self p rest)
        rw [h] at h2
        exact Ordering.noConfusion h2
    · show cmpFeaturePairs rest = Ordering.eq ↔ _
      constructor
      · intro hrest q hq
        rcases List.mem_cons.mp hq with hq | hq
        · rw [hq]; exact h
        · exact ih.mp hrest q hq
      · intro hall
        exact ih.mpr fun q hq => hall q (List.mem_cons_of_mem p hq)
    · show Ordering.gt = Ordering.eq ↔ _
      constructor
      · intro hc; exact Ordering.noConfusion hc
      · intro hall
        have h2 := hall p (List.mem_cons_self p rest)
        rw [h] at h2
        exact Ordering.noConfusion h2

/-- Flipping both direction tags reverses the comparison of two present
components. -/
theorem flip_cmp_present (f g : ComparableDocFeature) (hf : f.value.isSome)
    (hg : g.value.isSome) :
    (flipFeature f).cmp (flipFeature g) = (f.cmp g).swap := by
  obtain ⟨a, ha⟩ := Option.isSome_iff_exists.mp hf
  obtain ⟨b, hb⟩ := Option.isSome_iff_exists.mp hg
  cases f with
  | mk fv fo =>
    cases g with
    | mk gv go =>
      simp only at ha hb
      subst ha
      subst hb
      cases fo
      · rfl
      · show natCmp a b = ((natCmp a b).swap).swap
        rw [Ordering.swap_swap]

/-- Flipping both direction tags leaves a present-vs-absent comparison
unchanged. -/
theorem flip_cmp_mixed (f g : ComparableDocFeature)
    (h : (f.value.isSome ∧ g.value = none) ∨ (f.value = none ∧ g.value.isSome)) :
    (flipFeature f).cmp (flipFeature g) = f.cmp g := by
  rcases h with ⟨hf, hg⟩ | ⟨hf, hg⟩
  · obtain ⟨a, ha⟩ := Option.isSome_iff_exists.mp hf
    cases f with
    | mk fv fo =>
      cases g with
      | mk gv go =>
        simp only at ha hg
        subst ha
        subst hg
        rfl
  · obtain ⟨b, hb⟩ := Option.isSome_iff_exists.mp hg
    cases f with
    | mk fv fo =>
      cases g with
      | mk gv go =>
        simp only at hb hf
        subst hb
        subst hf
        rfl

/-- Flipping every direction tag swaps the loop's verdict when every
component on both sides is present. -/
theorem cmpFeaturePairs_flip :
    ∀ l : List (ComparableDocFeature × ComparableDocFeature),
    (∀ p ∈ l, p.1.value.isSome ∧ p.2.value.isSome) →
    cmpFeaturePairs (l.map (fun p => (flipFeature p.1, flipFeature p.2)))
      = (cmpFeaturePairs l).swap := by
  intro l
  induction l with
  | nil => intro _; rfl
  | cons p rest ih =>
    intro h
    have hp := h p (List.mem_cons_self p rest)
    have hrest : ∀ q ∈ rest, q.1.value.isSome ∧ q.2.value.isSome :=
      fun q hq => h q (List.mem_cons_of_mem p hq)
    show (match (flipFeature p.1).cmp (flipFeature p.2) with
      | Ordering.eq => cmpFeaturePairs
          (rest.map (fun q : ComparableDocFeature × ComparableDocFeature =>
            (flipFeature q.1, flipFeature q.2)))
      | c => c)
        = (match p.1.cmp p.2 with
          | Ordering.eq => cmpFeaturePairs rest
          | c => c).swap
    rw [flip_cmp_present p.1 p.2 hp.1 hp.2]
    rcases hcmp : p.1.cmp p.2 with _ | _ | _
    · rfl
    · exact ih hrest
    · rfl

/-! ### The claims -/

/-- **C1**: whenever one compared sort-key component is present (`Some`)
and the other absent (`None`), the present side ranks strictly higher
(`Greater` when it is `self`, `Less` when it is `other`), for both `Asc`
and `Desc` direction tags on the component doing the comparing (and on the
other component). -/
theorem c1_present_outranks_absent (v : ℕ) (selfOrder otherOrder : Order) :
    ComparableDocFeature.cmp ⟨some v, selfOrder⟩ ⟨none, otherOrder⟩ = Ordering.gt ∧
    ComparableDocFeature.cmp ⟨none, selfOrder⟩ ⟨some v, otherOrder⟩ = Ordering.lt :=
  ⟨rfl, rfl⟩

/-- **C5**: for sort-key vectors of equal length the comparator is exactly
"first non-equal component pair wins, `Equal` if every pair (including two
absent values) compares equal", component-wise from index 0. -/
theorem c5_lexicographic (a b : ComparableDocFeatures)
    (h : a.features.length = b.features.length) :
    a.cmp b = lexFirstNonEqualSpec a.features b.features ∧
    (a.cmp b = Ordering.eq ↔
      ∀ p ∈ a.features.zip b.features, p.1.cmp p.2 = Ordering.eq) :=
  ⟨cmpFeaturePairs_eq_lexSpec a.features b.features,
   cmpFeaturePairs_eq_iff (a.features.zip b.features)⟩

/-- Witness for C5 at a concrete pair of equal-length vectors. -/
theorem c5_lexicographic_witness :
    (ComparableDocFeatures.mk [⟨some 1, Order.Asc⟩, ⟨none, Order.Desc⟩] ⟨[]⟩).cmp
        ⟨[⟨some 1, Order.Asc⟩, ⟨some 2, Order.Desc⟩], ⟨[]⟩⟩
      = lexFirstNonEqualSpec [⟨some 1, Order.Asc⟩, ⟨none, Order.Desc⟩]
          [⟨some 1, Order.Asc⟩, ⟨some 2, Order.Desc⟩] ∧
    ((ComparableDocFeatures.mk [⟨some 1, Order.Asc⟩, ⟨none, Order.Desc⟩] ⟨[]⟩).cmp
        ⟨[⟨some 1, Order.Asc⟩, ⟨some 2, Order.Desc⟩], ⟨[]⟩⟩ = Ordering.eq ↔
      ∀ p ∈ ([⟨some 1, Order.Asc⟩, ⟨none, Order.Desc⟩] : List ComparableDocFeature).zip
          [⟨some 1, Order.Asc⟩, ⟨some 2, Order.Desc⟩], p.1.cmp p.2 = Ordering.eq) :=
  c5_lexicographic ⟨[⟨some 1, Order.Asc⟩, ⟨none, Order.Desc⟩], ⟨[]⟩⟩
    ⟨[⟨some 1, Order.Asc⟩, ⟨some 2, Order.Desc⟩], ⟨[]⟩⟩ rfl

/-- **C6**: flipping the direction tag of every component exactly reverses
the comparator's verdict on two fully-present sort-key vectors, and on a
component pair with exactly one present value flipping leaves the outcome
unchanged (present still outranks absent). -/
theorem c6_flip_directions (a b : ComparableDocFeatures)
    (r₁ r₂ : SearchFieldResults)
    (ha : ∀ f ∈ a.features, f.value.isSome)
    (hb : ∀ f ∈ b.features, f.value.isSome) :
    ComparableDocFeatures.cmp ⟨a.features.map flipFeature, r₁⟩
        ⟨b.features.map flipFeature, r₂⟩
      = (a.cmp b).swap ∧
    (∀ f g : ComparableDocFeature,
      (f.value.isSome ∧ g.value = none) ∨ (f.value = none ∧ g.value.isSome) →
      (flipFeature f).cmp (flipFeature g) = f.cmp g) := by
  constructor
  · show cmpFeaturePairs ((a.features.map flipFeature).zip (b.features.map flipFeature))
        = (cmpFeaturePairs (a.features.zip b.features)).swap
    rw [List.zip_map]
    have hmap : Prod.map flipFeature flipFeature
        = fun p : ComparableDocFeature × ComparableDocFeature =>
          (flipFeature p.1, flipFeature p.2) := rfl
    rw [hmap]
    refine cmpFeaturePairs_flip (a.features.zip b.features) ?_
    intro p hp
    have hmem := List.of_mem_zip (a := p.1) (b := p.2) hp
    exact ⟨ha p.1 hmem.1, hb p.2 hmem.2⟩
  · exact fun f g h => flip_cmp_mixed f g h

/-- Witness for C6 at concrete fully-present vectors. -/
theorem c6_flip_directions_witness :
    ComparableDocFeatures.cmp
        ⟨([⟨some 3, Order.Asc⟩, ⟨some 9, Order.Desc⟩] : List ComparableDocFeature).map flipFeature, ⟨[]⟩⟩
        ⟨([⟨some 5, Order.Asc⟩, ⟨some 9, Order.Desc⟩] : List ComparableDocFeature).map flipFeature, ⟨[]⟩⟩
      = ((ComparableDocFeatures.mk [⟨some 3, Order.Asc⟩, ⟨some 9, Order.Desc⟩] ⟨[]⟩).cmp
          ⟨[⟨some 5, Order.Asc⟩, ⟨some 9, Order.Desc⟩], ⟨[]⟩⟩).swap ∧
    (∀ f g : ComparableDocFeature,
      (f.value.isSome ∧ g.value = none) ∨ (f.value = none ∧ g.value.isSome) →
      (flipFeature f).cmp (flipFeature g) = f.cmp g) :=
  c6_flip_directions ⟨[⟨some 3, Order.Asc⟩, ⟨some 9, Order.Desc⟩], ⟨[]⟩⟩
    ⟨[⟨some 5, Order.Asc⟩, ⟨some 9, Order.Desc⟩], ⟨[]⟩⟩ ⟨[]⟩ ⟨[]⟩
    (by decide) (by decide)

/-- **C7** fails on the code: when the column accessor yields an empty
value sequence for a requested display field, `get_fields` hits
`.next().expect("val must exist")` and aborts (modelled as the
`valMustExist` error) instead of omitting the field; on a non-empty
sequence only the first value is consumed. -/
theorem c7_empty_sequence_aborts :
    get_fields ["f"] [("f", (⟨fun _ => []⟩, ColumnType.U64))] 0
      = Except.error FieldError.valMustExist ∧
    get_fields ["f"] [("f", (⟨fun _ => [7, 9]⟩, ColumnType.U64))] 0
      = Except.ok ⟨[("f", Value.U64 7)]⟩ :=
  ⟨rfl, rfl⟩

/-- **C8**: for a requested display field whose column type tag is not
`U64`, `I64` or `F64`, the extractor stops at that field's first access
with the unimplemented-fallback failure, independently of any further
requested fields, instead of coercing or returning a value. -/
theorem c8_unsupported_type (tag : ColumnType)
    (h1 : tag ≠ ColumnType.U64) (h2 : tag ≠ ColumnType.I64)
    (h3 : tag ≠ ColumnType.F64) (name : String) (more : List String)
    (col : Column) (doc v : ℕ) (rest : List ℕ)
    (hvals : col.values_for_doc doc = v :: rest) :
    decodeColumnValue tag v = Except.error FieldError.todoUnsupported ∧
    get_fields (name :: more) [(name, (col, tag))] doc
      = Except.error FieldError.todoUnsupported := by
  have hdec : decodeColumnValue tag v = Except.error FieldError.todoUnsupported := by
    cases tag
    · exact absurd rfl h1
    · exact absurd rfl h2
    · exact absurd rfl h3
    all_goals rfl
  refine ⟨hdec, ?_⟩
  have hlook : ([(name, (col, tag))].lookup name) = some (col, tag) := by
    simp [List.lookup]
  have hloop : get_fields_loop [(name, (col, tag))] doc (name :: more)
      = Except.error FieldError.todoUnsupported := by
    simp only [get_fields_loop, hlook, hvals, List.head?_cons, hdec]
  unfold get_fields
  rw [hloop]

/-- Witness for C8 at a concrete text column. -/
theorem c8_unsupported_type_witness :
    decodeColumnValue ColumnType.Str 7 = Except.error FieldError.todoUnsupported ∧
    get_fields ["f"] [("f", (⟨fun _ => [7]⟩, ColumnType.Str))] 0
      = Except.error FieldError.todoUnsupported :=
  c8_unsupported_type ColumnType.Str (by decide) (by decide) (by decide)
    "f" [] ⟨fun _ => [7]⟩ 0 7 [] rfl

section ClaimSelectors

variable {α β : Type} [LinearOrder α]

/-- **C2**: folding the per-part bounded selectors (capacity
`size + from`) of any partition, in any fold order, into a global selector
of the same capacity by re-pushing their retained entries retains exactly
the same ranks (key multiset, here the canonical best-first key list) as a
single selector fed the full unpartitioned entry list — equality of the
retained entries themselves holds only up to ties of equal rank, which is
why the statement compares key lists. -/
theorem c2_merge_independent_of_partition (size : ℕ) (fromOpt : Option ℕ)
    (parts parts' : List (List (α × β))) (hperm : parts'.Perm parts) :
    keysOf (mergeAllParts size fromOpt parts' : TopHitsCollector α β).top_n.intoSortedVec
      = keysOf ((from_req size fromOpt : TopHitsCollector α β).collectAll
          parts.flatten).top_n.intoSortedVec := by
  show keysOf (mergeAllParts size fromOpt parts').top_n.buffer
      = keysOf ((from_req size fromOpt : TopHitsCollector α β).collectAll
          parts.flatten).top_n.buffer
  rw [mergeAllParts_buffer, collectAll_buffer]
  have h1 := mergeParts_keys_aux (size + fromOpt.getD 0) parts' []
  rw [List.append_nil, List.append_nil] at h1
  rw [h1]
  exact insortAll_take_keys_of_perm (keysOf_perm hperm.flatten) (size + fromOpt.getD 0)

/-- Witness for C2 at a concrete two-part partition folded in the other
order. -/
theorem c2_merge_independent_of_partition_witness :
    keysOf (mergeAllParts 2 none
        [[((1 : ℕ), (1 : ℕ))], [(3, 2), (2, 3)]]).top_n.intoSortedVec
      = keysOf ((from_req 2 none : TopHitsCollector ℕ ℕ).collectAll
          ([[((3 : ℕ), (2 : ℕ)), (2, 3)], [(1, 1)]]).flatten).top_n.intoSortedVec :=
  c2_merge_independent_of_partition 2 none [[(3, 2), (2, 3)], [(1, 1)]]
    [[(1, 1)], [(3, 2), (2, 3)]] (by decide)

/-- **C3** fails on the code: with a configured offset of 2 and no
retained entries, `finalize` runs `hits.drain(..2)` on a vector of length
0, which aborts (`Vec::drain` range end out of bounds, modelled as
`none`) instead of returning an empty hit list. -/
theorem c3_excess_offset_aborts :
    (from_req 1 (some 2) : TopHitsCollector ℕ ℕ).top_n.intoSortedVec.length < 2 ∧
    (from_req 1 (some 2) : TopHitsCollector ℕ ℕ).finalize = none := by
  decide

/-- **C4**: with the selector built at capacity `size + offset` and the
offset not exceeding the retained count, `finalize` drains the retained
entries best-first (weakly decreasing ranks), removes exactly the first
`offset` of them and returns the remainder, which holds at most `size`
hits; and with `size = 2`, `offset = 1` and five documents ranked
`D1 > D2 > D3 > D4 > D5` the final hit list is exactly `[D2, D3]`. -/
theorem c4_finalize_pagination (size offset : ℕ) (l : List (α × β))
    (h : offset ≤ ((from_req size (some offset) : TopHitsCollector α β).collectAll
      l).top_n.intoSortedVec.length) :
    SortedDesc ((from_req size (some offset) : TopHitsCollector α β).collectAll
        l).top_n.intoSortedVec ∧
    ((from_req size (some offset) : TopHitsCollector α β).collectAll l).finalize
      = some (((from_req size (some offset) : TopHitsCollector α β).collectAll
          l).top_n.intoSortedVec.drop offset) ∧
    (((from_req size (some offset) : TopHitsCollector α β).collectAll
        l).top_n.intoSortedVec.drop offset).length ≤ size ∧
    ((from_req 2 (some 1) : TopHitsCollector ℕ ℕ).collectAll
        [(5, 1), (4, 2), (3, 3), (2, 4), (1, 5)]).finalize
      = some [(4, 2), (3, 3)] := by
  have hbuf : ((from_req size (some offset) : TopHitsCollector α β).collectAll
      l).top_n.intoSortedVec = (insortAll [] l).take (size + offset) := by
    show ((from_req size (some offset) : TopHitsCollector α β).collectAll
      l).top_n.buffer = (insortAll [] l).take (size + offset)
    rw [collectAll_buffer]
    rfl
  refine ⟨?_, ?_, ?_, by decide⟩
  · rw [hbuf]
    exact (SortedDesc.insortAll List.Pairwise.nil l).take _
  · have hfrom : ((from_req size (some offset) :
        TopHitsCollector α β).collectAll l).req_from = some offset :=
      collectAll_req_from l _
    simp only [TopHitsCollector.finalize, hfrom, Option.getD_some]
    rw [if_pos h]
  · rw [hbuf, List.length_drop, List.length_take]
    omega

/-- Witness for C4 at the concrete five-document pagination scenario. -/
theorem c4_finalize_pagination_witness :
    ((from_req 2 (some 1) : TopHitsCollector ℕ ℕ).collectAll
        [(5, 1), (4, 2), (3, 3), (2, 4), (1, 5)]).finalize
      = some [(4, 2), (3, 3)] :=
  (c4_finalize_pagination 2 1 [(5, 1), (4, 2), (3, 3), (2, 4), (1, 5)]
    (by decide)).2.2.2

end ClaimSelectors

/-- **C9**: writing a u64 into any `Term` with `set_u64` and reading it
back with `get_u64` returns the same value, and for `x < y` the written
8-byte big-endian value strings compare `enc(x) < enc(y)`
lexicographically. -/
theorem c9_u64_roundtrip_and_order (t u : Term) (x y : ℕ)
    (hx : x < 2 ^ 64) (hy : y < 2 ^ 64) :
    (t.set_u64 x).get_u64 = x ∧
    (x < y → lexLt ((t.set_u64 x).value) ((u.set_u64 y).value) = true) := by
  refine ⟨get_set_u64 t x hx, ?_⟩
  intro hxy
  rw [set_u64_value, set_u64_value]
  refine lexLt_beBytes 8 x y ?_
  have h8 : (256 : ℕ) ^ 8 = 2 ^ 64 := by norm_num
  rw [h8, Nat.mod_eq_of_lt hx, Nat.mod_eq_of_lt hy]
  exact hxy

/-- Witness for C9 at `x = 3`, `y = 7` on an empty term buffer. -/
theorem c9_u64_roundtrip_and_order_witness :
    ((Term.mk []).set_u64 3).get_u64 = 3 ∧
    lexLt (((Term.mk []).set_u64 3).value) (((Term.mk []).set_u64 7).value)
      = true :=
  ⟨(c9_u64_roundtrip_and_order ⟨[]⟩ ⟨[]⟩ 3 7 (by norm_num) (by norm_num)).1,
   (c9_u64_roundtrip_and_order ⟨[]⟩ ⟨[]⟩ 3 7 (by norm_num) (by norm_num)).2
     (by norm_num)⟩

/-- **C10**: on a buffer holding at least the 4-byte field prefix,
`set_u64` and `set_text` leave the field id read by `field` unchanged
while replacing the value bytes. -/
theorem c10_field_preserved (t : Term) (v : ℕ) (text : List ℕ)
    (h : 4 ≤ t.bytes.length) :
    (t.set_u64 v).field = t.field ∧ (t.set_text text).field = t.field ∧
    (t.set_u64 v).value = writeU64BE v ∧ (t.set_text text).value = text := by
  refine ⟨?_, ?_, set_u64_value t v, set_text_value t text⟩
  · show readU32BE (t.set_u64 v).bytes = readU32BE t.bytes
    rw [readU32BE, readU32BE, take4_set_u64 t v h]
  · show readU32BE (t.set_text text).bytes = readU32BE t.bytes
    rw [readU32BE, readU32BE, take4_set_text t text h]

/-- Witness for C10 on a 6-byte term buffer with field id 9. -/
theorem c10_field_preserved_witness :
    ((Term.mk [0, 0, 0, 9, 5, 5]).set_u64 7).field
      = (Term.mk [0, 0, 0, 9, 5, 5]).field ∧
    ((Term.mk [0, 0, 0, 9, 5, 5]).set_text [1, 2]).field
      = (Term.mk [0, 0, 0, 9, 5, 5]).field ∧
    ((Term.mk [0, 0, 0, 9, 5, 5]).set_u64 7).value = writeU64BE 7 ∧
    ((Term.mk [0, 0, 0, 9, 5, 5]).set_text [1, 2]).value = [1, 2] :=
  c10_field_preserved ⟨[0, 0, 0, 9, 5, 5]⟩ 7 [1, 2] (by decide)

end Tantivy
